import Mathlib

/-!
Verification of the distributed VTK Legacy geometry parser
(src/input/parsers/vtklegacy/parser/geometry.cpp).

Byte offsets are C++ `size_t` values, so the embedding keeps the wrapping
subtraction of `size_t` explicit where the source subtracts offsets.
External collaborators that are not part of the repository snapshot
(`MixedElementsParser`, `ASCIIParser`, the MPI wrappers) are modelled from
the specification; each such definition carries a doc comment starting with
`Modelled from the spec`.
-/

/-- Width of the value space of the C++ `size_t` type used for byte offsets. -/
def USIZE : Nat := 2 ^ 64

/-- Wrapping `size_t` subtraction of two offsets below `USIZE`. -/
def subMod (a b : Nat) : Nat := (a + (USIZE - b % USIZE)) % USIZE

/-- Embeds `round` (geometry.cpp:250-254): advance `current` to the next multiple
of `chunk` counted from `start`, with the subtraction performed in `size_t`. -/
def roundUp (current start chunk : Nat) : Nat :=
  if subMod current start % chunk = 0 then current
  else (current + (chunk - subMod current start % chunk)) % USIZE

/-- Embeds `swap` (geometry.cpp:238-248): reverse the bytes of one fixed-width
value, converting between big-endian file order and host order. -/
def swapBytes (bs : List Nat) : List Nat := bs.reverse

/-- Cuts a byte run into consecutive chunks of `w` bytes; the first argument is
fuel bounding the recursion by the length of the run. -/
def chunksOfAux (w : Nat) : Nat → List Nat → List (List Nat)
  | _, [] => []
  | 0, _ :: _ => []
  | fuel + 1, b :: bs => (b :: bs).take w :: chunksOfAux w fuel ((b :: bs).drop w)

/-- Cuts a byte run into consecutive chunks of `w` bytes. -/
def chunksOf (w : Nat) (bs : List Nat) : List (List Nat) := chunksOfAux w bs.length bs

/-- Value decoding of a raw byte run, as the loop of `read` does through `swap`
(geometry.cpp:268-270): cut into `w`-byte values and byte-reverse each one. -/
def decodeVals (w : Nat) (bs : List Nat) : List (List Nat) := (chunksOf w bs).map swapBytes

/-- Big-endian file encoding of a list of host-order values, each given as its
list of host-order bytes. -/
def encodeBE (vs : List (List Nat)) : List Nat := (vs.map List.reverse).flatten

/-- Byte range `[b, e)` of a file given as a byte list. -/
def sliceBytes (fb : List Nat) (b e : Nat) : List Nat := (fb.drop b).take (e - b)

/-- Embeds the range computation of `read` (geometry.cpp:259-263): clamp the
record payload range to the worker window and round both ends with `round`,
measured from the record begin. -/
def readRange (kbegin kend wbegin wend align : Nat) : Nat × Nat :=
  (roundUp (max kbegin wbegin) kbegin align, roundUp (min kend wend) kbegin align)

/-- Embeds `read` (geometry.cpp:256-272): the bytes copied by a worker with
window `[wbegin, wend)` for a record with payload `[kbegin, kend)`. -/
def readBytes (fb : List Nat) (kbegin kend wbegin wend align : Nat) : List Nat :=
  let r := readRange kbegin kend wbegin wend align
  if r.1 < r.2 then sliceBytes fb r.1 r.2 else []

/-- Typed output of `read`: the decoded `w`-byte values of the copied range. -/
def readVals (w : Nat) (fb : List Nat) (kbegin kend wbegin wend align : Nat) :
    List (List Nat) :=
  decodeVals w (readBytes fb kbegin kend wbegin wend align)

/-- Embeds `readMore` (geometry.cpp:274-284): from the position where the plain
read of the worker stopped, copy `size` more `w`-byte values. -/
def readMoreBytes (fb : List Nat) (kbegin kend wend align w size : Nat) : List Nat :=
  let e := roundUp (min kend wend) kbegin align
  sliceBytes fb e (e + w * size)

/-- Typed output of `readMore`. -/
def readMoreVals (w : Nat) (fb : List Nat) (kbegin kend wend align size : Nat) :
    List (List Nat) :=
  decodeVals w (readMoreBytes fb kbegin kend wend align w size)

/-- Embeds `_dimension` (geometry.cpp:19-39): topological dimension of a VTK cell
type code, `-1` for a code outside the lookup table. -/
def _dimension (t : Int) : Int :=
  if t = 1 then 0
  else if t = 3 then 1
  else if t = 21 then 1
  else if t = 9 then 2
  else if t = 23 then 2
  else if t = 5 then 2
  else if t = 22 then 2
  else if t = 10 then 3
  else if t = 24 then 3
  else if t = 14 then 3
  else if t = 27 then 3
  else if t = 13 then 3
  else if t = 26 then 3
  else if t = 12 then 3
  else if t = 25 then 3
  else -1

/-- Embeds the per-worker minimum fold of `parse` (geometry.cpp:314-317) with the
initial value 4 from the declaration on line 292. -/
def dimFoldMin (cs : List Int) : Int := cs.foldl (fun m c => min m (_dimension c)) 4

/-- Embeds the per-worker maximum fold of `parse` (geometry.cpp:314-318) with the
initial value 0 from the declaration on line 292. -/
def dimFoldMax (cs : List Int) : Int := cs.foldl (fun m c => max m (_dimension c)) 0

/-- Embeds the `MPI_MIN` reduction over workers (geometry.cpp:323). -/
def globalMinDim (css : List (List Int)) : Int := (css.map dimFoldMin).foldl min 4

/-- Embeds the `MPI_MAX` reduction over workers (geometry.cpp:324). -/
def globalMaxDim (css : List (List Int)) : Int := (css.map dimFoldMax).foldl max 0

/-- Embeds the fatal mixed-dimension check of `parse` (geometry.cpp:326-330). -/
def mixedDimError (css : List (List Int)) : Bool := globalMinDim css != globalMaxDim css

/-- Fatal errors reachable from `parse`: the mixed-dimension abort
(geometry.cpp:328) and the unrecognized element type abort in `_etype`
(geometry.cpp:70). -/
inductive ParseError where
  | mixedDim
  | unrecognizedEtype
deriving DecidableEq

/-- Control flow of `parse`: the mixed-dimension check aborts before any later
stage, so a later error `later` (such as the `_etype` abort) is only reported
when the check passes. -/
def dimStageOutcome (css : List (List Int)) (later : Option ParseError) : Option ParseError :=
  if mixedDimError css then some ParseError.mixedDim else later

/-- Embeds the record-validity lambda given to `MixedElementsParser::parse`
(geometry.cpp:336-352): a candidate record size is returned unchanged when it is
valid for the agreed dimension and replaced by `esint()`, that is 0, otherwise. -/
def validID (mindim id : Int) : Int :=
  if mindim = 0 then (if id = 1 then id else 0)
  else if mindim = 1 then (if id = 2 ∨ id = 3 then id else 0)
  else if mindim = 2 then (if id = 3 ∨ id = 4 ∨ id = 6 ∨ id = 8 then id else 0)
  else if mindim = 3 then
    (if id = 4 ∨ id = 5 ∨ id = 6 ∨ id = 8 ∨ id = 10 ∨ id = 13 ∨ id = 15 ∨ id = 20
     then id else 0)
  else 0

/-- Embeds `pbegin` (geometry.cpp:365 and 389): count of leading doubles of a
worker slice that belong to the point started by the previous worker, computed
from the exclusive prefix sum `npoints` of double counts. -/
def pbegin (npoints : Nat) : Nat := (3 - npoints % 3) % 3

/-- Embeds `pmissing` (geometry.cpp:366): count of trailing doubles needed to
complete the last point of a worker slice of length `sz`. -/
def pmissing (sz pb : Nat) : Nat := (3 - (sz - pb) % 3) % 3

/-- Modelled from the spec: `MixedElementsParser` (input/parsers/mixedelementsparser,
not under src/) scans the flat `[count, id...]` array; this is the smallest record
boundary (cumulative sum of record sizes) at or after flat position `j`. -/
def nextRecordBoundary : List Nat → Nat → Nat
  | [], j => j
  | s :: ss, j => if j = 0 then 0 else if j ≤ s then s else s + nextRecordBoundary ss (j - s)

/-- Modelled from the spec: number of trailing integers the last record of a
worker slice ending at flat position `j` still needs (`mixedparser.missing`). -/
def missingTrail (sizes : List Nat) (j : Nat) : Nat := nextRecordBoundary sizes j - j

/-- Modelled from the spec: offset of the first fully owned record inside a
worker slice starting at flat position `j` (`mixedparser.first`). -/
def firstOwned (sizes : List Nat) (j : Nat) : Nat := nextRecordBoundary sizes j - j

/-- Modelled from the spec: per-file entry of `MixedElementsParser::invalid`
(mixedelementsparser not under src/). Each worker contributes one when its
classification found no invalid record, so the entry equals the worker count
exactly when the cross-worker invalid tally is zero. The flag of a worker is
true when it observed at least one classification-invalid record. -/
def cleanWorkers (flags : List Bool) : Nat := (flags.filter (fun f => !f)).length

/-- Cross-worker tally of workers that observed a classification-invalid record. -/
def invalidTally (flags : List Bool) : Nat := (flags.filter (fun f => f)).length

/-- Embeds the warning condition of `parse` (geometry.cpp:354-359):
`mixedparser.invalid[i] != info::mpi::size`, warning only, never an abort. -/
def regionWarning (flags : List Bool) : Bool := cleanWorkers flags != flags.length

/-- Embeds `noffset` of the coordinate fill (geometry.cpp:391): first global node
id of a worker whose exclusive prefix sum of double counts is `a`, shifted by the
running accumulator `nid` over earlier files (geometry.cpp:386,423). -/
def nodeStart (nid a : Nat) : Nat := nid + (a + pbegin a) / 3

/-- Embeds `csize` (geometry.cpp:390): count of points a worker emits, from the
slice length `s` completed by `pmissing` additional doubles (geometry.cpp:367). -/
def nodeCount (a s : Nat) : Nat := (s + pmissing s (pbegin a) - pbegin a) / 3

/-- Global node ids emitted by one worker (geometry.cpp:392-393). -/
def workerNodeIDs (nid a s : Nat) : List Nat :=
  List.range' (nodeStart nid a) (nodeCount a s)

/-- Global node ids emitted by the workers in rank order; `a` accumulates the
exclusive prefix sum produced by `Communication::exscan` (geometry.cpp:322). -/
def allNodeIDs (nid : Nat) : Nat → List Nat → List Nat
  | _, [] => []
  | a, s :: ss => workerNodeIDs nid a s ++ allNodeIDs nid (a + s) ss

/-- Wellformedness of a per-worker split of a point payload: at every worker the
count of leading doubles owed to the previous point fits in the local slice. -/
def okSizes : Nat → List Nat → Bool
  | _, [] => true
  | a, s :: ss => decide (pbegin a ≤ s) && okSizes (a + s) ss

/-- Embeds `VTKLegacyGeometry::Keyword` for a fixed file: the byte offset of the
keyword match and the payload range (geometry.h via geometry.cpp:74-80). -/
structure Keyword where
  offset : Nat
  begin : Nat
  end_ : Nat
deriving DecidableEq

/-- Embeds `std::lower_bound` as used by `setend` (geometry.cpp:179): the first
element of the list that is not less than `x`; the list is sorted at the call
site. -/
def lowerBound : List Nat → Nat → Option Nat
  | [], _ => none
  | b :: bs, x => if x ≤ b then some b else lowerBound bs x

/-- Embeds the body of `setend` (geometry.cpp:178-180) for one record; the C++
code dereferences the iterator, which is valid only when the bound exists. -/
def setendOne (bounds : List Nat) (k : Keyword) : Keyword :=
  { k with end_ := (lowerBound bounds k.begin).getD k.end_ }

/-- Embeds the boundary list built by `scan` (geometry.cpp:229-234): every
keyword offset of the file plus the final byte offset, sorted. -/
def scanOffsets (ks : List Keyword) (fileEnd : Nat) : List Nat :=
  List.insertionSort (· ≤ ·) (ks.map Keyword.offset ++ [fileEnd])

/-- Embeds `setend` over all records of one file (geometry.cpp:235). -/
def scanSetEnd (ks : List Keyword) (fileEnd : Nat) : List Keyword :=
  ks.map (setendOne (scanOffsets ks fileEnd))

/-- Stated from the claim wording, for comparison with the code: the smallest
boundary among the payload begins plus the file end that is strictly greater
than the given begin. -/
def claimEndBoundary (ks : List Keyword) (fileEnd : Nat) (b : Nat) : Option Nat :=
  ((ks.map Keyword.begin ++ [fileEnd]).filter (fun x => b < x)).min?

/-- Amended end assignment: the offset of the next keyword, or the file end for
the last record of the file. -/
def expectedEnds (fileEnd : Nat) : List Keyword → List Keyword
  | [] => []
  | [k] => [{ k with end_ := fileEnd }]
  | k :: k2 :: ks => { k with end_ := k2.offset } :: expectedEnds fileEnd (k2 :: ks)

theorem subMod_sub {a b : Nat} (hba : b ≤ a) (ha : a < USIZE) : subMod a b = a - b := by
  have hb : b < USIZE := lt_of_le_of_lt hba ha
  simp only [subMod, USIZE] at *
  omega

theorem roundUp_self (kb al : Nat) (_h : kb < USIZE) : roundUp kb kb al = kb := by
  have h0 : subMod kb kb = 0 := by
    simp only [subMod, USIZE] at *
    omega
  simp [roundUp, h0]

theorem roundUp_aligned {kb c al : Nat} (h1 : kb ≤ c) (h2 : c < USIZE)
    (h3 : (c - kb) % al = 0) : roundUp c kb al = c := by
  simp [roundUp, subMod_sub h1 h2, h3]

theorem roundUp_mem {kb c al : Nat} (h1 : kb ≤ c) (h2 : c + al < USIZE) (h3 : 0 < al) :
    ∃ m, roundUp c kb al = kb + al * m ∧ c ≤ kb + al * m ∧ kb + al * m < c + al := by
  have hc : c < USIZE := by omega
  have hs : subMod c kb = c - kb := subMod_sub h1 hc
  by_cases h : (c - kb) % al = 0
  · obtain ⟨m, hm⟩ := Nat.dvd_of_mod_eq_zero h
    refine ⟨m, ?_, ?_, ?_⟩
    · rw [roundUp, hs, if_pos h, ← hm]
      omega
    · rw [← hm]; omega
    · rw [← hm]; omega
  · have hr : (c - kb) % al < al := Nat.mod_lt _ h3
    have hdm := Nat.div_add_mod (c - kb) al
    refine ⟨(c - kb) / al + 1, ?_, ?_, ?_⟩
    · rw [roundUp, hs, if_neg h]
      rw [Nat.mul_add, Nat.mul_one]
      have hlt : c + (al - (c - kb) % al) < USIZE := by omega
      rw [Nat.mod_eq_of_lt hlt]
      omega
    · rw [Nat.mul_add, Nat.mul_one]; omega
    · rw [Nat.mul_add, Nat.mul_one]; omega

theorem encodeBE_cons (c : List Nat) (vs : List (List Nat)) :
    encodeBE (c :: vs) = c.reverse ++ encodeBE vs := rfl

theorem encodeBE_length {w : Nat} : ∀ {vs : List (List Nat)},
    (∀ c ∈ vs, c.length = w) → (encodeBE vs).length = w * vs.length
  | [], _ => by simp [encodeBE]
  | c :: vs, h => by
    have hc : c.length = w := h c (by simp)
    have ih := @encodeBE_length w vs (fun x hx => h x (by simp [hx]))
    simp [encodeBE_cons, ih, hc, Nat.mul_succ, Nat.add_comm]

theorem swapBytes_eq : swapBytes = List.reverse := rfl

theorem chunksOfAux_flatten {w : Nat} (hw : 0 < w) :
    ∀ (us : List (List Nat)) (fuel : Nat), (∀ u ∈ us, u.length = w) →
      us.flatten.length ≤ fuel → chunksOfAux w fuel us.flatten = us := by
  intro us
  induction us with
  | nil => intro fuel _ _; cases fuel <;> simp [chunksOfAux]
  | cons u us ih =>
    intro fuel h hfuel
    have hu : u.length = w := h u (by simp)
    have hne : u ≠ [] := by intro hc; rw [hc] at hu; simp at hu; omega
    obtain ⟨b, bs, rfl⟩ := List.exists_cons_of_ne_nil hne
    have hu' : bs.length + 1 = w := by simpa using hu
    have hcons : (b :: bs) ++ us.flatten = b :: (bs ++ us.flatten) := by simp
    have happ : ((b :: bs) :: us).flatten = (b :: bs) ++ us.flatten := by simp
    have hflatlen : (((b :: bs) :: us).flatten).length = w + us.flatten.length := by
      simp
      omega
    cases fuel with
    | zero =>
      rw [hflatlen] at hfuel
      omega
    | succ fuel =>
      have h1 : ((b :: bs) ++ us.flatten).take w = b :: bs := by
        rw [← hu]
        exact List.take_left _ _
      have h2 : ((b :: bs) ++ us.flatten).drop w = us.flatten := by
        rw [← hu]
        exact List.drop_left _ _
      rw [happ, hcons, chunksOfAux, ← hcons, h1, h2]
      congr 1
      refine ih fuel (fun x hx => h x (by simp [hx])) ?_
      rw [hflatlen] at hfuel
      omega

theorem chunksOf_flatten {w : Nat} (hw : 0 < w) (us : List (List Nat))
    (h : ∀ u ∈ us, u.length = w) : chunksOf w us.flatten = us :=
  chunksOfAux_flatten hw us us.flatten.length h le_rfl

theorem decodeVals_encodeBE {w : Nat} (hw : 0 < w) (vs : List (List Nat))
    (h : ∀ c ∈ vs, c.length = w) : decodeVals w (encodeBE vs) = vs := by
  have huni : ∀ u ∈ vs.map List.reverse, u.length = w := by
    intro u hu
    obtain ⟨c, hc, rfl⟩ := List.mem_map.mp hu
    simp [h c hc]
  have hch := chunksOf_flatten hw (vs.map List.reverse) huni
  simp only [decodeVals, encodeBE, hch, swapBytes_eq]
  rw [List.map_map]
  simp [Function.comp_def]

theorem encodeBE_drop {w : Nat} : ∀ (vs : List (List Nat)) (i : Nat),
    (∀ c ∈ vs, c.length = w) → (encodeBE vs).drop (w * i) = encodeBE (vs.drop i)
  | _, 0, _ => by simp
  | [], _ + 1, _ => by simp [encodeBE]
  | c :: vs, i + 1, h => by
    have hc : c.reverse.length = w := by simp [h c (by simp)]
    have hsplit : w * (i + 1) = c.reverse.length + w * i := by rw [hc]; ring
    rw [encodeBE_cons, hsplit, ← List.drop_drop, List.drop_left, List.drop_succ_cons]
    exact encodeBE_drop vs i (fun x hx => h x (by simp [hx]))

theorem encodeBE_take {w : Nat} : ∀ (vs : List (List Nat)) (i : Nat),
    (∀ c ∈ vs, c.length = w) → (encodeBE vs).take (w * i) = encodeBE (vs.take i)
  | _, 0, _ => by simp [encodeBE]
  | [], _ + 1, _ => by simp [encodeBE]
  | c :: vs, i + 1, h => by
    have hc : c.reverse.length = w := by simp [h c (by simp)]
    have hsplit : w * (i + 1) = c.reverse.length + w * i := by rw [hc]; ring
    rw [encodeBE_cons, hsplit, List.take_add, List.take_left, List.drop_left,
      List.take_succ_cons, encodeBE_cons]
    congr 1
    exact encodeBE_take vs i (fun x hx => h x (by simp [hx]))

theorem sliceBytes_encode {w : Nat} {vs : List (List Nat)} (h : ∀ c ∈ vs, c.length = w)
    (P S : List Nat) {i j : Nat} (hij : i ≤ j) (hj : j ≤ vs.length) :
    sliceBytes (P ++ (encodeBE vs ++ S)) (P.length + w * i) (P.length + w * j) =
      encodeBE ((vs.drop i).take (j - i)) := by
  have hlen : (encodeBE vs).length = w * vs.length := encodeBE_length h
  have hmul : w * j = w * i + w * (j - i) := by rw [← Nat.mul_add]; congr 1; omega
  have hile : w * i ≤ (encodeBE vs).length := by
    rw [hlen]; exact Nat.mul_le_mul_left w (le_trans hij hj)
  simp only [sliceBytes]
  have hd1 : (P ++ (encodeBE vs ++ S)).drop (P.length + w * i)
      = (encodeBE vs).drop (w * i) ++ S := by
    rw [← List.drop_drop, List.drop_left, List.drop_append_of_le_length hile]
  have harith : (P.length + w * j) - (P.length + w * i) = w * (j - i) := by
    rw [Nat.add_sub_add_left, hmul, Nat.add_sub_cancel_left]
  rw [hd1, harith]
  have hdropuni : ∀ c ∈ vs.drop i, c.length = w := fun c hc => h c (List.mem_of_mem_drop hc)
  have hdlen : ((encodeBE vs).drop (w * i)).length = w * (vs.length - i) := by
    rw [encodeBE_drop vs i h, encodeBE_length hdropuni, List.length_drop]
  have hjle : w * (j - i) ≤ ((encodeBE vs).drop (w * i)).length := by
    rw [hdlen]; exact Nat.mul_le_mul_left w (by omega)
  rw [List.take_append_of_le_length hjle, encodeBE_drop vs i h,
    encodeBE_take (vs.drop i) (j - i) hdropuni]

theorem readVals_left {w u al : Nat} (hal : al = w * u) (hw : 0 < w) (hu : 0 < u)
    {vs : List (List Nat)}
    (hvs : ∀ c ∈ vs, c.length = w) (P S : List Nat) {fb : List Nat} {kb ke wb we K : Nat}
    (hfb : fb = P ++ (encodeBE vs ++ S)) (hkb : kb = P.length)
    (hK : vs.length = u * K) (hke : ke = kb + w * vs.length)
    (hwb : wb ≤ kb) (hwe1 : kb ≤ we) (hwe2 : we ≤ ke) (hbig : ke + al < USIZE) :
    ∃ m, m ≤ K ∧ roundUp we kb al = kb + al * m ∧
      readVals w fb kb ke wb we al = vs.take (u * m) := by
  subst hal
  have hwu : 0 < w * u := Nat.mul_pos hw hu
  have hkeU : ke < USIZE := lt_trans (Nat.lt_add_of_pos_right hwu) hbig
  have hkbU : kb < USIZE := lt_of_le_of_lt (by omega) hkeU
  have hweU : we + w * u < USIZE := lt_of_le_of_lt (Nat.add_le_add_right hwe2 _) hbig
  obtain ⟨m, hr, hcle, hclt⟩ := roundUp_mem hwe1 hweU hwu
  have hkele : ke = kb + (w * u) * K := by rw [hke, hK, ← Nat.mul_assoc]
  have hmK : m ≤ K := by
    by_contra hgt
    push_neg at hgt
    have hmono : (w * u) * (K + 1) ≤ (w * u) * m := Nat.mul_le_mul_left _ hgt
    have h2 : (w * u) * (K + 1) = (w * u) * K + w * u := by ring
    rw [h2] at hmono
    have h1 : kb + (w * u) * m < kb + (w * u) * K + (w * u) := by
      calc kb + (w * u) * m < we + w * u := hclt
      _ ≤ ke + w * u := Nat.add_le_add_right hwe2 _
      _ = kb + (w * u) * K + (w * u) := by rw [hkele]
    linarith
  refine ⟨m, hmK, hr, ?_⟩
  have hr1 : roundUp (max kb wb) kb (w * u) = kb := by
    rw [Nat.max_eq_left hwb]
    exact roundUp_self kb _ hkbU
  have hr2 : roundUp (min ke we) kb (w * u) = kb + (w * u) * m := by
    rw [Nat.min_eq_right hwe2, hr]
  simp only [readVals, readBytes, readRange, hr1, hr2]
  by_cases hm : 0 < m
  · have hpos : kb < kb + (w * u) * m := by
      have : 0 < (w * u) * m := Nat.mul_pos hwu hm
      omega
    rw [if_pos hpos]
    have humK : u * m ≤ vs.length := by
      rw [hK]; exact Nat.mul_le_mul_left u hmK
    have hshape1 : kb = P.length + w * 0 := by rw [hkb]; simp
    have hshape2 : kb + (w * u) * m = P.length + w * (u * m) := by
      rw [hkb, Nat.mul_assoc]
    rw [hfb, hshape2, hshape1]
    rw [sliceBytes_encode hvs P S (Nat.zero_le _) humK]
    simp only [List.drop_zero, Nat.sub_zero]
    exact decodeVals_encodeBE hw _ (fun c hc => hvs c (List.mem_of_mem_take hc))
  · have hm0 : m = 0 := by omega
    subst hm0
    simp only [Nat.mul_zero, Nat.add_zero, lt_self_iff_false, if_false]
    simp [decodeVals, chunksOf, chunksOfAux]

theorem readVals_right {w u al : Nat} (hal : al = w * u) (hw : 0 < w) (hu : 0 < u)
    {vs : List (List Nat)}
    (hvs : ∀ c ∈ vs, c.length = w) (P S : List Nat) {fb : List Nat} {kb ke wb we K : Nat}
    (hfb : fb = P ++ (encodeBE vs ++ S)) (hkb : kb = P.length)
    (hK : vs.length = u * K) (hke : ke = kb + w * vs.length)
    (hwb1 : kb ≤ wb) (hwb2 : wb ≤ ke) (hwe : ke ≤ we) (hbig : ke + al < USIZE) :
    ∃ m, m ≤ K ∧ roundUp wb kb al = kb + al * m ∧
      readVals w fb kb ke wb we al = vs.drop (u * m) := by
  subst hal
  have hwu : 0 < w * u := Nat.mul_pos hw hu
  have hkeU : ke < USIZE := lt_trans (Nat.lt_add_of_pos_right hwu) hbig
  have hkbU : kb < USIZE := lt_of_le_of_lt (by omega) hkeU
  have hwbU : wb + w * u < USIZE := lt_of_le_of_lt (Nat.add_le_add_right hwb2 _) hbig
  obtain ⟨m, hr, hcle, hclt⟩ := roundUp_mem hwb1 hwbU hwu
  have hkele : ke = kb + (w * u) * K := by rw [hke, hK, ← Nat.mul_assoc]
  have hmK : m ≤ K := by
    by_contra hgt
    push_neg at hgt
    have hmono : (w * u) * (K + 1) ≤ (w * u) * m := Nat.mul_le_mul_left _ hgt
    have h2 : (w * u) * (K + 1) = (w * u) * K + w * u := by ring
    rw [h2] at hmono
    have h1 : kb + (w * u) * m < kb + (w * u) * K + (w * u) := by
      calc kb + (w * u) * m < wb + w * u := hclt
      _ ≤ ke + w * u := Nat.add_le_add_right hwb2 _
      _ = kb + (w * u) * K + (w * u) := by rw [hkele]
    linarith
  refine ⟨m, hmK, hr, ?_⟩
  have hr1 : roundUp (max kb wb) kb (w * u) = kb + (w * u) * m := by
    rw [Nat.max_eq_right hwb1, hr]
  have hal : (ke - kb) % (w * u) = 0 := by
    have : ke - kb = (w * u) * K := by rw [hkele]; omega
    rw [this]
    exact Nat.mul_mod_right _ _
  have hr2 : roundUp (min ke we) kb (w * u) = ke := by
    rw [Nat.min_eq_left hwe]
    exact roundUp_aligned (by omega) hkeU hal
  simp only [readVals, readBytes, readRange, hr1, hr2]
  by_cases hm : m < K
  · have hpos : kb + (w * u) * m < ke := by
      rw [hkele]
      have : (w * u) * m < (w * u) * K := mul_lt_mul_of_pos_left hm hwu
      omega
    rw [if_pos hpos]
    have humK : u * m ≤ u * K := Nat.mul_le_mul_left u hmK
    have hshape1 : kb + (w * u) * m = P.length + w * (u * m) := by
      rw [hkb, Nat.mul_assoc]
    have hshape2 : ke = P.length + w * (u * K) := by
      rw [hkele, hkb, Nat.mul_assoc]
    rw [hfb, hshape1, hshape2]
    rw [sliceBytes_encode hvs P S humK (by rw [hK])]
    have hfull : u * K - u * m = (vs.drop (u * m)).length := by
      rw [List.length_drop, hK]
    rw [hfull, List.take_length]
    exact decodeVals_encodeBE hw _ (fun c hc => hvs c (List.mem_of_mem_drop hc))
  · have hmeq : m = K := by omega
    subst hmeq
    have hend : kb + (w * u) * m = ke := by rw [hkele]
    rw [hend]
    simp only [lt_self_iff_false, if_false]
    have hdrop : vs.drop (u * m) = [] := by
      rw [← hK]
      exact List.drop_length vs
    rw [hdrop]
    simp [decodeVals, chunksOf, chunksOfAux]

theorem readVals_whole {w u al : Nat} (hal : al = w * u) (hw : 0 < w) (hu : 0 < u)
    {vs : List (List Nat)}
    (hvs : ∀ c ∈ vs, c.length = w) (P S : List Nat) {fb : List Nat} {kb ke wb we K : Nat}
    (hfb : fb = P ++ (encodeBE vs ++ S)) (hkb : kb = P.length)
    (hK : vs.length = u * K) (hke : ke = kb + w * vs.length)
    (hwb : wb ≤ kb) (hwe : ke ≤ we) (hbig : ke + al < USIZE) :
    readVals w fb kb ke wb we al = vs := by
  subst hal
  have hwu : 0 < w * u := Nat.mul_pos hw hu
  have hkble : kb ≤ ke := by rw [hke]; exact Nat.le_add_right _ _
  have hkeU : ke < USIZE := lt_trans (Nat.lt_add_of_pos_right hwu) hbig
  have hkbU : kb < USIZE := lt_of_le_of_lt hkble hkeU
  have hkele : ke = kb + (w * u) * K := by rw [hke, hK, ← Nat.mul_assoc]
  have hr1 : roundUp (max kb wb) kb (w * u) = kb := by
    rw [Nat.max_eq_left hwb]
    exact roundUp_self kb _ hkbU
  have hal : (ke - kb) % (w * u) = 0 := by
    have : ke - kb = (w * u) * K := by rw [hkele]; omega
    rw [this]
    exact Nat.mul_mod_right _ _
  have hr2 : roundUp (min ke we) kb (w * u) = ke := by
    rw [Nat.min_eq_left hwe]
    exact roundUp_aligned hkble hkeU hal
  simp only [readVals, readBytes, readRange, hr1, hr2]
  by_cases hpos : kb < ke
  · rw [if_pos hpos]
    have hshape1 : kb = P.length + w * 0 := by rw [hkb]; simp
    have hshape2 : ke = P.length + w * vs.length := by rw [hke, hkb]
    rw [hfb, hshape2, hshape1]
    rw [sliceBytes_encode hvs P S (Nat.zero_le _) (le_refl _)]
    simp only [List.drop_zero, Nat.sub_zero, List.take_length]
    exact decodeVals_encodeBE hw _ hvs
  · rw [if_neg hpos]
    have hlen0 : vs.length = 0 := by
      by_contra hne
      have : 0 < w * vs.length := Nat.mul_pos hw (Nat.pos_of_ne_zero hne)
      omega
    have hnil : vs = [] := List.length_eq_zero.mp hlen0
    subst hnil
    simp [decodeVals, chunksOf, chunksOfAux]

theorem readMoreVals_slice {w : Nat} (hw : 0 < w) {vs : List (List Nat)}
    (hvs : ∀ c ∈ vs, c.length = w) (P S : List Nat) {fb : List Nat} {kb ke we m t : Nat}
    (hfb : fb = P ++ (encodeBE vs ++ S)) (hkb : kb = P.length)
    (hr : roundUp (min ke we) kb w = kb + w * m)
    (hmt : m + t ≤ vs.length) :
    readMoreVals w fb kb ke we w t = (vs.drop m).take t := by
  simp only [readMoreVals, readMoreBytes, hr]
  have hshape1 : kb + w * m = P.length + w * m := by rw [hkb]
  have hshape2 : kb + w * m + w * t = P.length + w * (m + t) := by
    rw [hkb, Nat.mul_add]
    omega
  rw [hfb, hshape2, hshape1]
  rw [sliceBytes_encode hvs P S (by omega) hmt]
  have htt : m + t - m = t := by omega
  rw [htt]
  exact decodeVals_encodeBE hw _
    (fun c hc => hvs c (List.mem_of_mem_drop (List.mem_of_mem_take hc)))

theorem nextRecordBoundary_ge : ∀ (sizes : List Nat) (j : Nat),
    j ≤ nextRecordBoundary sizes j := by
  intro sizes
  induction sizes with
  | nil => intro j; simp [nextRecordBoundary]
  | cons s ss ih =>
    intro j
    rw [nextRecordBoundary]
    split
    · omega
    · split
      · omega
      · have := ih (j - s)
        omega

theorem nextRecordBoundary_le : ∀ (sizes : List Nat) (j : Nat), j ≤ sizes.sum →
    nextRecordBoundary sizes j ≤ sizes.sum := by
  intro sizes
  induction sizes with
  | nil => intro j hj; simp_all [nextRecordBoundary]
  | cons s ss ih =>
    intro j hj
    rw [nextRecordBoundary]
    simp only [List.sum_cons] at hj ⊢
    split
    · omega
    · split
      · omega
      · have := ih (j - s) (by omega)
        omega

theorem foldl_min_le_init : ∀ (xs : List Int) (i : Int), xs.foldl min i ≤ i := by
  intro xs
  induction xs with
  | nil => intro i; simp
  | cons x xs ih =>
    intro i
    simp only [List.foldl_cons]
    exact le_trans (ih (min i x)) (min_le_left i x)

theorem foldl_min_le_mem : ∀ {xs : List Int} {x : Int} (i : Int), x ∈ xs → xs.foldl min i ≤ x := by
  intro xs
  induction xs with
  | nil => intro x i hx; simp at hx
  | cons y xs ih =>
    intro x i hx
    simp only [List.foldl_cons]
    rcases List.mem_cons.mp hx with h | h
    · subst h
      exact le_trans (foldl_min_le_init xs (min i x)) (min_le_right i x)
    · exact ih (min i y) h

theorem le_foldl_min {b : Int} : ∀ (xs : List Int) (i : Int), b ≤ i → (∀ x ∈ xs, b ≤ x) →
    b ≤ xs.foldl min i := by
  intro xs
  induction xs with
  | nil => intro i hi _; simpa using hi
  | cons x xs ih =>
    intro i hi hall
    simp only [List.foldl_cons]
    exact ih (min i x) (le_min hi (hall x (by simp))) (fun y hy => hall y (by simp [hy]))

theorem foldl_max_ge_init : ∀ (xs : List Int) (i : Int), i ≤ xs.foldl max i := by
  intro xs
  induction xs with
  | nil => intro i; simp
  | cons x xs ih =>
    intro i
    simp only [List.foldl_cons]
    exact le_trans (le_max_left i x) (ih (max i x))

theorem foldl_max_ge_mem : ∀ {xs : List Int} {x : Int} (i : Int), x ∈ xs → x ≤ xs.foldl max i := by
  intro xs
  induction xs with
  | nil => intro x i hx; simp at hx
  | cons y xs ih =>
    intro x i hx
    simp only [List.foldl_cons]
    rcases List.mem_cons.mp hx with h | h
    · subst h
      exact le_trans (le_max_right i x) (foldl_max_ge_init xs (max i x))
    · exact ih (max i y) h

theorem foldl_max_le {b : Int} : ∀ (xs : List Int) (i : Int), i ≤ b → (∀ x ∈ xs, x ≤ b) →
    xs.foldl max i ≤ b := by
  intro xs
  induction xs with
  | nil => intro i hi _; simpa using hi
  | cons x xs ih =>
    intro i hi hall
    simp only [List.foldl_cons]
    exact ih (max i x) (max_le hi (hall x (by simp))) (fun y hy => hall y (by simp [hy]))

theorem _dimension_ge (t : Int) : -1 ≤ _dimension t := by
  rw [_dimension]
  omega

theorem _dimension_le (t : Int) : _dimension t ≤ 3 := by
  rw [_dimension]
  omega

theorem foldl_minf_le_init : ∀ (xs : List Int) (i : Int),
    xs.foldl (fun m c => min m (_dimension c)) i ≤ i := by
  intro xs
  induction xs with
  | nil => intro i; simp
  | cons x xs ih =>
    intro i
    simp only [List.foldl_cons]
    exact le_trans (ih _) (min_le_left _ _)

theorem foldl_minf_le_mem : ∀ {xs : List Int} {c : Int} (i : Int), c ∈ xs →
    xs.foldl (fun m c => min m (_dimension c)) i ≤ _dimension c := by
  intro xs
  induction xs with
  | nil => intro c i hc; simp at hc
  | cons y xs ih =>
    intro c i hc
    simp only [List.foldl_cons]
    rcases List.mem_cons.mp hc with h | h
    · subst h
      exact le_trans (foldl_minf_le_init xs _) (min_le_right _ _)
    · exact ih _ h

theorem le_foldl_minf {d : Int} : ∀ (xs : List Int) (i : Int), d ≤ i →
    (∀ c ∈ xs, d ≤ _dimension c) → d ≤ xs.foldl (fun m c => min m (_dimension c)) i := by
  intro xs
  induction xs with
  | nil => intro i hi _; simpa using hi
  | cons x xs ih =>
    intro i hi hall
    simp only [List.foldl_cons]
    exact ih _ (le_min hi (hall x (by simp))) (fun y hy => hall y (by simp [hy]))

theorem foldl_maxf_ge_init : ∀ (xs : List Int) (i : Int),
    i ≤ xs.foldl (fun m c => max m (_dimension c)) i := by
  intro xs
  induction xs with
  | nil => intro i; simp
  | cons x xs ih =>
    intro i
    simp only [List.foldl_cons]
    exact le_trans (le_max_left _ _) (ih _)

theorem foldl_maxf_ge_mem : ∀ {xs : List Int} {c : Int} (i : Int), c ∈ xs →
    _dimension c ≤ xs.foldl (fun m c => max m (_dimension c)) i := by
  intro xs
  induction xs with
  | nil => intro c i hc; simp at hc
  | cons y xs ih =>
    intro c i hc
    simp only [List.foldl_cons]
    rcases List.mem_cons.mp hc with h | h
    · subst h
      exact le_trans (le_max_right _ _) (foldl_maxf_ge_init xs _)
    · exact ih _ h

theorem foldl_maxf_le {d : Int} : ∀ (xs : List Int) (i : Int), i ≤ d →
    (∀ c ∈ xs, _dimension c ≤ d) → xs.foldl (fun m c => max m (_dimension c)) i ≤ d := by
  intro xs
  induction xs with
  | nil => intro i hi _; simpa using hi
  | cons x xs ih =>
    intro i hi hall
    simp only [List.foldl_cons]
    exact ih _ (max_le hi (hall x (by simp))) (fun y hy => hall y (by simp [hy]))

theorem globalMinDim_le_worker {css : List (List Int)} {cs : List Int} (h : cs ∈ css) :
    globalMinDim css ≤ dimFoldMin cs :=
  foldl_min_le_mem _ (List.mem_map_of_mem _ h)

theorem le_globalMinDim {d : Int} {css : List (List Int)} (h4 : d ≤ 4)
    (hall : ∀ cs ∈ css, d ≤ dimFoldMin cs) : d ≤ globalMinDim css := by
  refine le_foldl_min _ _ h4 ?_
  intro x hx
  obtain ⟨cs, hcs, rfl⟩ := List.mem_map.mp hx
  exact hall cs hcs

theorem globalMaxDim_ge_worker {css : List (List Int)} {cs : List Int} (h : cs ∈ css) :
    dimFoldMax cs ≤ globalMaxDim css :=
  foldl_max_ge_mem _ (List.mem_map_of_mem _ h)

theorem globalMaxDim_le {d : Int} {css : List (List Int)} (h0 : 0 ≤ d)
    (hall : ∀ cs ∈ css, dimFoldMax cs ≤ d) : globalMaxDim css ≤ d := by
  refine foldl_max_le _ _ h0 ?_
  intro x hx
  obtain ⟨cs, hcs, rfl⟩ := List.mem_map.mp hx
  exact hall cs hcs

theorem globalMaxDim_ge_zero (css : List (List Int)) : 0 ≤ globalMaxDim css :=
  foldl_max_ge_init _ 0

theorem globalMinDim_ge_neg_one (css : List (List Int)) : -1 ≤ globalMinDim css := by
  refine le_globalMinDim (by omega) ?_
  intro cs _
  exact le_foldl_minf cs 4 (by omega) (fun c _ => _dimension_ge c)

theorem nodeStep {a s : Nat} (h : pbegin a ≤ s) :
    (a + pbegin a) / 3 + nodeCount a s = (a + s + pbegin (a + s)) / 3 := by
  simp only [nodeCount, pmissing, pbegin] at *
  omega

theorem allNodeIDs_range (nid : Nat) :
    ∀ (sizes : List Nat) (a : Nat), okSizes a sizes = true →
      allNodeIDs nid a sizes
        = List.range' (nid + (a + pbegin a) / 3)
            ((a + sizes.sum + pbegin (a + sizes.sum)) / 3 - (a + pbegin a) / 3) := by
  intro sizes
  induction sizes with
  | nil =>
    intro a _
    have h0 : (a + ([] : List Nat).sum + pbegin (a + ([] : List Nat).sum)) / 3
        - (a + pbegin a) / 3 = 0 := by simp
    rw [allNodeIDs, h0, List.range'_zero]
  | cons s ss ih =>
    intro a hok
    rw [okSizes] at hok
    simp only [Bool.and_eq_true, decide_eq_true_eq] at hok
    obtain ⟨hpb, hok2⟩ := hok
    rw [allNodeIDs, ih (a + s) hok2, workerNodeIDs, nodeStart]
    have hstep := nodeStep hpb
    have hX : nid + (a + s + pbegin (a + s)) / 3
        = nid + (a + pbegin a) / 3 + nodeCount a s := by omega
    rw [hX]
    have happ := List.range'_append (nid + (a + pbegin a) / 3) (nodeCount a s)
      ((a + s + ss.sum + pbegin (a + s + ss.sum)) / 3 - (a + s + pbegin (a + s)) / 3) 1
    simp only [one_mul] at happ
    rw [happ]
    congr 1
    simp only [List.sum_cons, nodeCount, pmissing, pbegin] at *
    omega

theorem cleanWorkers_add_invalidTally (flags : List Bool) :
    cleanWorkers flags + invalidTally flags = flags.length := by
  induction flags with
  | nil => simp [cleanWorkers, invalidTally]
  | cons f fs ih =>
    cases f <;> simp [cleanWorkers, invalidTally, List.filter] at * <;> omega

theorem lowerBound_cons_le {b x : Nat} (h : x ≤ b) (bs : List Nat) :
    lowerBound (b :: bs) x = some b := by
  rw [lowerBound, if_pos h]

theorem lowerBound_cons_gt {b x : Nat} (h : b < x) (bs : List Nat) :
    lowerBound (b :: bs) x = lowerBound bs x := by
  rw [lowerBound, if_neg (by omega)]

theorem offsets_lt_begins : ∀ (k : Keyword) (ks : List Keyword),
    (∀ x ∈ ks, x.offset < x.begin) →
    List.Chain' (fun a b => a.begin ≤ b.offset) (k :: ks) →
    k.offset < k.begin →
    ∀ x ∈ ks, k.offset < x.begin := by
  intro k ks
  induction ks generalizing k with
  | nil => intro _ _ _ x hx; simp at hx
  | cons k2 rest ih =>
    intro hob hch hk x hx
    have hlink : k.begin ≤ k2.offset := (List.chain'_cons.mp hch).1
    have hk2 : k2.offset < k2.begin := hob k2 (by simp)
    rcases List.mem_cons.mp hx with h | hx2
    · subst h
      omega
    · have := ih k2 (fun y hy => hob y (by simp [hy])) (List.chain'_cons.mp hch).2 hk2 x hx2
      omega

theorem offsetsChain (fileEnd : Nat) : ∀ (ks : List Keyword),
    (∀ x ∈ ks, x.offset < x.begin) →
    List.Chain' (fun a b => a.begin ≤ b.offset) ks →
    (∀ x ∈ ks, x.begin ≤ fileEnd) →
    List.Chain' (· ≤ ·) (ks.map Keyword.offset ++ [fileEnd]) := by
  intro ks
  induction ks with
  | nil => intro _ _ _; simp
  | cons k rest ih =>
    intro h1 h2 h3
    have hk : k.offset < k.begin := h1 k (by simp)
    have htail : List.Chain' (· ≤ ·) (rest.map Keyword.offset ++ [fileEnd]) :=
      ih (fun x hx => h1 x (by simp [hx])) h2.tail (fun x hx => h3 x (by simp [hx]))
    rw [List.map_cons, List.cons_append]
    refine List.chain'_cons'.mpr ⟨?_, htail⟩
    intro y hy
    cases rest with
    | nil =>
      simp at hy
      subst hy
      have := h3 k (by simp)
      omega
    | cons k2 rest2 =>
      simp at hy
      subst hy
      have hlink : k.begin ≤ k2.offset := (List.chain'_cons.mp h2).1
      omega

theorem scanOffsets_eq (fileEnd : Nat) (ks : List Keyword)
    (h1 : ∀ x ∈ ks, x.offset < x.begin)
    (h2 : List.Chain' (fun a b => a.begin ≤ b.offset) ks)
    (h3 : ∀ x ∈ ks, x.begin ≤ fileEnd) :
    scanOffsets ks fileEnd = ks.map Keyword.offset ++ [fileEnd] := by
  apply List.Sorted.insertionSort_eq
  exact List.chain'_iff_pairwise.mp (offsetsChain fileEnd ks h1 h2 h3)

theorem setend_expected (fileEnd : Nat) : ∀ (ks : List Keyword),
    (∀ x ∈ ks, x.offset < x.begin) →
    List.Chain' (fun a b => a.begin ≤ b.offset) ks →
    (∀ x ∈ ks, x.begin ≤ fileEnd) →
    ks.map (setendOne (ks.map Keyword.offset ++ [fileEnd])) = expectedEnds fileEnd ks := by
  intro ks
  induction ks with
  | nil => intro _ _ _; simp [expectedEnds]
  | cons k rest ih =>
    intro h1 h2 h3
    have hk : k.offset < k.begin := h1 k (by simp)
    rw [List.map_cons, List.map_cons, List.cons_append]
    have hhead : setendOne (k.offset :: (rest.map Keyword.offset ++ [fileEnd])) k
        = { k with end_ := ((lowerBound (rest.map Keyword.offset ++ [fileEnd]) k.begin).getD k.end_) } := by
      rw [setendOne, lowerBound_cons_gt hk]
    have htailmaps : rest.map (setendOne (k.offset :: (rest.map Keyword.offset ++ [fileEnd])))
        = rest.map (setendOne (rest.map Keyword.offset ++ [fileEnd])) := by
      apply List.map_congr_left
      intro x hx
      have hlt : k.offset < x.begin :=
        offsets_lt_begins k rest (fun y hy => h1 y (by simp [hy])) h2 hk x hx
      rw [setendOne, setendOne, lowerBound_cons_gt hlt]
    rw [htailmaps, ih (fun x hx => h1 x (by simp [hx])) h2.tail (fun x hx => h3 x (by simp [hx]))]
    cases rest with
    | nil =>
      have hfe : k.begin ≤ fileEnd := h3 k (by simp)
      rw [hhead]
      simp [expectedEnds, lowerBound_cons_le hfe]
    | cons k2 rest2 =>
      have hlink : k.begin ≤ k2.offset := (List.chain'_cons.mp h2).1
      rw [hhead]
      simp [expectedEnds, lowerBound_cons_le hlink]

theorem expectedEnds_gap (fileEnd : Nat) : ∀ (ks : List Keyword),
    (∀ x ∈ ks, x.offset < x.begin) →
    List.Chain' (fun a b => a.begin ≤ b.offset) ks →
    List.Chain' (fun a b => a.end_ < b.begin) (expectedEnds fileEnd ks) := by
  intro ks
  induction ks with
  | nil => intro _ _; simp [expectedEnds]
  | cons k rest ih =>
    intro h1 h2
    cases rest with
    | nil => simp [expectedEnds]
    | cons k2 rest2 =>
      rw [expectedEnds]
      refine List.chain'_cons'.mpr ⟨?_, ih (fun x hx => h1 x (by simp [hx])) h2.tail⟩
      intro y hy
      have hk2 : k2.offset < k2.begin := h1 k2 (by simp)
      cases rest2 with
      | nil =>
        simp [expectedEnds] at hy
        subst hy
        simpa using hk2
      | cons k3 rest3 =>
        simp [expectedEnds] at hy
        subst hy
        simpa using hk2

/-- C3: the record-validity predicate of the classifier, evaluated against the
globally agreed dimension, accepts a candidate record size exactly when the
pair appears in the fixed table - dimension 0 with size 1; dimension 1 with
size in {2,3}; dimension 2 with size in {3,4,6,8}; dimension 3 with size in
{4,5,6,8,10,13,15,20} - returning the size itself, and rejects every other
pair by returning 0. -/
theorem c3_validity_table (mindim id : Int) :
    validID mindim id =
      if (mindim = 0 ∧ id = 1)
        ∨ (mindim = 1 ∧ (id = 2 ∨ id = 3))
        ∨ (mindim = 2 ∧ (id = 3 ∨ id = 4 ∨ id = 6 ∨ id = 8))
        ∨ (mindim = 3 ∧
            (id = 4 ∨ id = 5 ∨ id = 6 ∨ id = 8 ∨ id = 10 ∨ id = 13 ∨ id = 15 ∨ id = 20))
      then id else 0 := by
  rw [validID]
  omega

/-- C6: a file emits the non-fatal region warning exactly when the cross-worker
classification-invalid tally is positive; a zero tally yields no warning, and
the condition feeds `eslog::warning`, never an abort. -/
theorem c6_warning_iff (flags : List Bool) :
    regionWarning flags = true ↔ 0 < invalidTally flags := by
  have h := cleanWorkers_add_invalidTally flags
  rw [regionWarning, bne_iff_ne]
  omega

/-- C5 counterexample: in a one-worker file whose only cell type code is 99,
every code of the file has the same dimension (code 99 maps to -1), yet the
reduced global minimum (-1) differs from the reduced global maximum (0, the
fold seed), so the fatal mixed-dimension error is reported - contradicting the
claim that a file whose codes all share one dimension reports no error. -/
theorem c5_counterexample :
    (([99] : List Int).all (fun c => _dimension c = _dimension 99)) = true
      ∧ mixedDimError [[99]] = true := by
  decide

/-- C5 amended: whenever the reduced global minimum and maximum dimensions
differ, the parse reports the fatal mixed-dimension error for the file; and
when the file holds at least one cell type code and every code of every worker
maps to one common recognized (nonnegative) dimension, no such error is
reported. -/
theorem c5_dimension_consensus :
    (∀ css : List (List Int), globalMinDim css ≠ globalMaxDim css → mixedDimError css = true)
    ∧ (∀ (css : List (List Int)) (d : Int), 0 ≤ d →
        (∀ cs ∈ css, ∀ c ∈ cs, _dimension c = d) →
        (∃ cs ∈ css, cs ≠ []) → mixedDimError css = false) := by
  constructor
  · intro css h
    rw [mixedDimError]
    exact bne_iff_ne.mpr h
  · intro css d hd0 hall hne
    obtain ⟨cs0, hcs0, hcs0ne⟩ := hne
    obtain ⟨c0, hc0⟩ := List.exists_mem_of_ne_nil cs0 hcs0ne
    have hdc0 : _dimension c0 = d := hall cs0 hcs0 c0 hc0
    have hd3 : d ≤ 3 := by rw [← hdc0]; exact _dimension_le c0
    have hminle : globalMinDim css ≤ d := by
      calc globalMinDim css ≤ dimFoldMin cs0 := globalMinDim_le_worker hcs0
      _ ≤ _dimension c0 := foldl_minf_le_mem 4 hc0
      _ = d := hdc0
    have hminge : d ≤ globalMinDim css := by
      refine le_globalMinDim (by omega) ?_
      intro cs hcs
      exact le_foldl_minf cs 4 (by omega) (fun c hc => le_of_eq (hall cs hcs c hc).symm)
    have hmaxge : d ≤ globalMaxDim css := by
      calc d = _dimension c0 := hdc0.symm
      _ ≤ dimFoldMax cs0 := foldl_maxf_ge_mem 0 hc0
      _ ≤ globalMaxDim css := globalMaxDim_ge_worker hcs0
    have hmaxle : globalMaxDim css ≤ d := by
      refine globalMaxDim_le hd0 ?_
      intro cs hcs
      exact foldl_maxf_le cs 0 hd0 (fun c hc => le_of_eq (hall cs hcs c hc))
    have hmin : globalMinDim css = d := le_antisymm hminle hminge
    have hmax : globalMaxDim css = d := le_antisymm hmaxle hmaxge
    rw [mixedDimError, hmin, hmax]
    simp

/-- Witness for C5: the amended consensus at a three-worker quad-only file (no
error) and the first half at a file mixing dimensions 3 and 2 (error). -/
theorem c5_witness :
    mixedDimError [[9], [9, 9], []] = false ∧ mixedDimError [[10], [9]] = true :=
  ⟨c5_dimension_consensus.2 [[9], [9, 9], []] 2 (by decide)
      (by decide) ⟨[9], by decide⟩,
    c5_dimension_consensus.1 [[10], [9]] (by decide)⟩

/-- C9: every cell type code outside the fixed lookup set maps to dimension -1;
consequently a file whose decoded cell-type slices contain such an unrecognized
code alongside a recognized one gets globalMinDim = -1, different from the
(never negative) globalMaxDim, and the parse aborts with the mixed-dimension
fatal error before any later stage - in particular before the
unrecognized-element-type error of `_etype` - can be reported. -/
theorem c9_unrecognized_code :
    (∀ t : Int, t ∉ ([1, 3, 21, 9, 23, 5, 22, 10, 24, 14, 27, 13, 26, 12, 25] : List Int) →
      _dimension t = -1)
    ∧ (∀ (css : List (List Int)) (cs1 cs2 : List Int) (u r : Int) (later : Option ParseError),
        cs1 ∈ css → u ∈ cs1 → cs2 ∈ css → r ∈ cs2 →
        _dimension u = -1 → _dimension r ≠ -1 →
        globalMinDim css = -1 ∧ globalMinDim css ≠ globalMaxDim css ∧
          dimStageOutcome css later = some ParseError.mixedDim) := by
  constructor
  · intro t ht
    simp only [List.mem_cons, List.not_mem_nil, or_false, not_or] at ht
    rw [_dimension]
    omega
  · intro css cs1 cs2 u r later hcs1 hu hcs2 hr hdu hdr
    have hmin : globalMinDim css = -1 := by
      have hle : globalMinDim css ≤ -1 := by
        calc globalMinDim css ≤ dimFoldMin cs1 := globalMinDim_le_worker hcs1
        _ ≤ _dimension u := foldl_minf_le_mem 4 hu
        _ = -1 := hdu
      have hge := globalMinDim_ge_neg_one css
      omega
    have hmax : 0 ≤ globalMaxDim css := globalMaxDim_ge_zero css
    have hne : globalMinDim css ≠ globalMaxDim css := by omega
    have herr : mixedDimError css = true := by
      rw [mixedDimError]
      exact bne_iff_ne.mpr hne
    exact ⟨hmin, hne, by rw [dimStageOutcome, if_pos herr]⟩

/-- Witness for C9: code 99 is outside the lookup set and maps to -1, and the
one-worker file [99, 10] aborts with the mixed-dimension error even though a
later stage stands ready to report the unrecognized-element-type error. -/
theorem c9_witness :
    ((99 : Int) ∉ ([1, 3, 21, 9, 23, 5, 22, 10, 24, 14, 27, 13, 26, 12, 25] : List Int))
      ∧ _dimension 99 = -1
      ∧ dimStageOutcome [[99, 10]] (some ParseError.unrecognizedEtype)
          = some ParseError.mixedDim :=
  ⟨by decide,
    c9_unrecognized_code.1 99 (by decide),
    (c9_unrecognized_code.2 [[99, 10]] [99, 10] [99, 10] 99 10
      (some ParseError.unrecognizedEtype) (by decide) (by decide) (by decide) (by decide)
      (by decide) (by decide)).2.2⟩

/-- C7: evaluation of the embedded `read` at a failing input. For a binary
float-triple points record with payload [100, 200) (alignment 12) and a worker
whose window is [0, 99), the intersection of the payload with the window is
empty - the clamped end 99 lies below the clamped begin 100 - yet the unsigned
`size_t` wraparound inside `round` moves the end to 108, so the worker copies
the 8 bytes [100, 108), which is not the rounded intersection and not even
aligned from the record begin. -/
theorem c7_wraparound_eval :
    readRange 100 200 0 99 12 = (100, 108)
      ∧ min 200 99 < max 100 0
      ∧ (readBytes (List.replicate 120 7) 100 200 0 99 12).length = 8
      ∧ (108 - 100) % 12 ≠ 0 := by
  decide

/-- C10 counterexample: with double-triple alignment 24, a record payload
[200, 400) and a worker window [0, 195), the code copies the 8 bytes
[200, 208): the copied end is not rounded to a multiple of the alignment from
the record begin, and the decoded slice holds one double rather than a whole
three-double unit, refuting the claim that every decoded binary slice holds a
whole number of aligned units. -/
theorem c10_counterexample :
    readRange 200 400 0 195 24 = (200, 208)
      ∧ (readBytes (List.replicate 300 1) 200 400 0 195 24).length = 8
      ∧ (208 - 200) % 24 ≠ 0 := by
  decide

/-- C10 amended: when the record begin does not exceed the clamped end - so the
`size_t` subtraction in `round` cannot underflow - both ends of the copied
range are rounded upward to multiples of the alignment measured from the
record begin, the copied range spans a whole number of aligned units, and its
end may exceed the clamped window end by at most alignment-minus-one bytes,
reaching into the slack region. -/
theorem c10_aligned_units {kb ke wb we al : Nat} (hal : 0 < al)
    (hv : kb ≤ min ke we) (hb1 : max kb wb + al < USIZE) (hb2 : min ke we + al < USIZE) :
    ((readRange kb ke wb we al).1 - kb) % al = 0
      ∧ ((readRange kb ke wb we al).2 - kb) % al = 0
      ∧ ((readRange kb ke wb we al).2 - (readRange kb ke wb we al).1) % al = 0
      ∧ max kb wb ≤ (readRange kb ke wb we al).1
      ∧ (readRange kb ke wb we al).1 < max kb wb + al
      ∧ min ke we ≤ (readRange kb ke wb we al).2
      ∧ (readRange kb ke wb we al).2 < min ke we + al := by
  obtain ⟨m1, hr1, hm1le, hm1lt⟩ := roundUp_mem (le_max_left kb wb) hb1 hal
  obtain ⟨m2, hr2, hm2le, hm2lt⟩ := roundUp_mem hv hb2 hal
  have h1 : (readRange kb ke wb we al).1 = kb + al * m1 := hr1
  have h2 : (readRange kb ke wb we al).2 = kb + al * m2 := hr2
  rw [h1, h2]
  have hs1 : kb + al * m1 - kb = al * m1 := by omega
  have hs2 : kb + al * m2 - kb = al * m2 := by omega
  refine ⟨?_, ?_, ?_, ?_, ?_, ?_, ?_⟩
  · rw [hs1]; exact Nat.mul_mod_right _ _
  · rw [hs2]; exact Nat.mul_mod_right _ _
  · rcases le_or_lt m1 m2 with hm | hm
    · have : kb + al * m2 - (kb + al * m1) = al * (m2 - m1) := by
        have : al * m2 = al * m1 + al * (m2 - m1) := by
          rw [← Nat.mul_add]
          congr 1
          omega
        omega
      rw [this]; exact Nat.mul_mod_right _ _
    · have hle : al * m2 ≤ al * m1 := Nat.mul_le_mul_left al (by omega)
      have : kb + al * m2 - (kb + al * m1) = 0 := by omega
      rw [this]; exact Nat.zero_mod _
  · exact hm1le
  · exact hm1lt
  · exact hm2le
  · exact hm2lt

/-- Witness for C10 amended: a record [0, 10) with alignment 4 and the window
[0, 10): the copied range is [0, 12), whose 12 bytes are three whole units and
whose end reaches 2 bytes past the clamped end into the slack region. -/
theorem c10_witness :
    (0 ≤ min 10 10 ∧ readRange 0 10 0 10 4 = (0, 12) ∧ min 10 10 < (readRange 0 10 0 10 4).2)
      ∧ (((readRange 0 10 0 10 4).1 - 0) % 4 = 0
        ∧ ((readRange 0 10 0 10 4).2 - 0) % 4 = 0
        ∧ ((readRange 0 10 0 10 4).2 - (readRange 0 10 0 10 4).1) % 4 = 0
        ∧ max 0 0 ≤ (readRange 0 10 0 10 4).1
        ∧ (readRange 0 10 0 10 4).1 < max 0 0 + 4
        ∧ min 10 10 ≤ (readRange 0 10 0 10 4).2
        ∧ (readRange 0 10 0 10 4).2 < min 10 10 + 4) :=
  ⟨by decide,
    c10_aligned_units (by decide) (by decide) (by decide) (by decide)⟩

/-- C1 counterexample: one file with two records, the first with keyword offset
0 and payload begin 10, the second with keyword offset 100 and payload begin
110, file end 200. The code assigns the first record the end 100 - the keyword
offset of the next section, obtained by lower_bound over keyword offsets -
whereas the smallest payload begin (plus file end) strictly greater than 10 is
110; bytes in [100, 110) then lie in no payload range, so the payload ranges
do not partition the file as claimed. -/
theorem c1_counterexample :
    scanSetEnd [⟨0, 10, 0⟩, ⟨100, 110, 0⟩] 200
        = [⟨0, 10, 100⟩, ⟨100, 110, 200⟩]
      ∧ claimEndBoundary [⟨0, 10, 0⟩, ⟨100, 110, 0⟩] 200 10 = some 110
      ∧ (100 : Nat) ≠ 110 := by
  decide

/-- C1 amended: `setend` assigns each record the smallest boundary, among the
keyword offsets of all records of the file plus the file end, that is not less
than the record begin; for a wellformed scan (keyword offset before payload
begin, records ordered, begins within the file) this is the keyword offset of
the next record, or the file end for the last one, so the payload ranges are
pairwise disjoint and ordered but leave the keyword header gaps uncovered
rather than partitioning the file. -/
theorem c1_end_resolution (ks : List Keyword) (fileEnd : Nat)
    (h1 : ∀ x ∈ ks, x.offset < x.begin)
    (h2 : List.Chain' (fun a b => a.begin ≤ b.offset) ks)
    (h3 : ∀ x ∈ ks, x.begin ≤ fileEnd) :
    scanSetEnd ks fileEnd = expectedEnds fileEnd ks
      ∧ List.Chain' (fun a b => a.end_ < b.begin) (scanSetEnd ks fileEnd) := by
  have hmain : scanSetEnd ks fileEnd = expectedEnds fileEnd ks := by
    rw [scanSetEnd, scanOffsets_eq fileEnd ks h1 h2 h3]
    exact setend_expected fileEnd ks h1 h2 h3
  refine ⟨hmain, ?_⟩
  rw [hmain]
  exact expectedEnds_gap fileEnd ks h1 h2

/-- Witness for C1: a two-record file with offsets 0 and 50, begins 12 and 63,
file end 90; the ends resolve to 50 and 90 and the ranges [12, 50) and
[63, 90) are disjoint with a gap at the second keyword header [50, 63). -/
theorem c1_witness :
    ((⟨0, 12, 0⟩ : Keyword).offset < (⟨0, 12, 0⟩ : Keyword).begin)
      ∧ scanSetEnd [⟨0, 12, 0⟩, ⟨50, 63, 0⟩] 90 = expectedEnds 90 [⟨0, 12, 0⟩, ⟨50, 63, 0⟩]
      ∧ List.Chain' (fun a b => a.end_ < b.begin) (scanSetEnd [⟨0, 12, 0⟩, ⟨50, 63, 0⟩] 90) :=
  ⟨by decide,
    (c1_end_resolution [⟨0, 12, 0⟩, ⟨50, 63, 0⟩] 90 (by decide)
      (List.chain'_cons.mpr ⟨by decide, by simp⟩) (by decide)).1,
    (c1_end_resolution [⟨0, 12, 0⟩, ⟨50, 63, 0⟩] 90 (by decide)
      (List.chain'_cons.mpr ⟨by decide, by simp⟩) (by decide)).2⟩

/-- C4: under the wellformed split condition (each worker slice holds at least
the doubles owed to the point split by its predecessor) and a payload of
whole triples, the node ids emitted in rank order - each the file-local index
plus the exclusive prefix sum of the double counts plus the running
accumulator over earlier files - form exactly the contiguous range of
sum-of-counts/3 ids starting at the accumulator: non-overlapping, order
preserving, and zero-based when the accumulator is zero. -/
theorem c4_node_id_ranges (nid : Nat) (sizes : List Nat)
    (hok : okSizes 0 sizes = true) (h3 : sizes.sum % 3 = 0) :
    allNodeIDs nid 0 sizes = List.range' nid (sizes.sum / 3) := by
  rw [allNodeIDs_range nid sizes 0 hok]
  have hstart : nid + (0 + pbegin 0) / 3 = nid := by simp [pbegin]
  have hcount : (0 + sizes.sum + pbegin (0 + sizes.sum)) / 3 - (0 + pbegin 0) / 3
      = sizes.sum / 3 := by
    simp only [pbegin]
    omega
  rw [hstart, hcount]

/-- Witness for C4: three workers with double counts 4, 5 and 3 (the cuts fall
inside triples) and accumulator 7 produce exactly the ids 7, 8, 9, 10. -/
theorem c4_witness :
    okSizes 0 [4, 5, 3] = true
      ∧ ([4, 5, 3] : List Nat).sum % 3 = 0
      ∧ allNodeIDs 7 0 [4, 5, 3] = List.range' 7 (([4, 5, 3] : List Nat).sum / 3) :=
  ⟨by decide, by decide, c4_node_id_ranges 7 [4, 5, 3] (by decide) (by decide)⟩

/-- C8: decoding the big-endian binary encoding of a sequence of fixed-width
values - in particular a payload of N float triples read by the binary decode
path over the whole payload - returns exactly the original 3N values (the
float-to-double promotion is exact, so equality holds at the byte level), and
the per-value byte reversal performed by `swap` is an involution. -/
theorem c8_roundtrip :
    (∀ (w N : Nat) (vs : List (List Nat)) (P S : List Nat), 0 < w →
        (∀ c ∈ vs, c.length = w) → vs.length = 3 * N →
        P.length + w * vs.length + w * 3 < USIZE →
        decodeVals w (encodeBE vs) = vs
          ∧ (decodeVals w (encodeBE vs)).length = vs.length
          ∧ readVals w (P ++ (encodeBE vs ++ S)) P.length (P.length + w * vs.length) 0
              (P.length + w * vs.length) (w * 3) = vs)
    ∧ (∀ bs : List Nat, swapBytes (swapBytes bs) = bs) := by
  constructor
  · intro w N vs P S hw huni h3N hbig
    have hrt := decodeVals_encodeBE hw vs huni
    refine ⟨hrt, by rw [hrt], ?_⟩
    exact readVals_whole rfl hw (by omega) huni P S rfl rfl h3N rfl (Nat.zero_le _)
      (le_refl _) hbig
  · intro bs
    simp [swapBytes]

/-- Witness for C8: a payload of one triple of one-byte values round-trips, the
whole-payload binary read returns it, and double byte reversal is identity. -/
theorem c8_witness :
    (0 : Nat) < 1
      ∧ (decodeVals 1 (encodeBE [[5], [6], [7]]) = [[5], [6], [7]]
        ∧ (decodeVals 1 (encodeBE [[5], [6], [7]])).length = 3
        ∧ readVals 1 (encodeBE [[5], [6], [7]]) 0 3 0 3 3 = [[5], [6], [7]])
      ∧ swapBytes (swapBytes [1, 2, 3]) = [1, 2, 3] :=
  ⟨by decide,
    c8_roundtrip.1 1 1 [[5], [6], [7]] [] [] (by decide) (by decide) (by decide) (by decide),
    c8_roundtrip.2 [1, 2, 3]⟩

/-- C2: splitting a binary points or cells payload between two workers at any
byte cut inside the payload and performing the boundary-completion reads
reconstructs exactly the decoded value sequence of a single worker decoding
the whole payload. For points both slices are triple-aligned, so the locally
computed remainder (3 - count mod 3) mod 3, seeded by the exclusive prefix sum
of double counts, is zero on both sides and no completion values are needed;
for cells the worker before the cut appends the classifier-determined missing
trailing integers through `readMore` and the worker after the cut skips the
same number of leading foreign integers. -/
theorem c2_boundary_completion :
    (∀ (w N : Nat) (vs : List (List Nat)) (P S fb : List Nat) (kb ke cut d0 d2 : Nat),
        0 < w → (∀ c ∈ vs, c.length = w) → vs.length = 3 * N →
        fb = P ++ (encodeBE vs ++ S) → kb = P.length → ke = kb + w * vs.length →
        d0 ≤ kb → kb ≤ cut → cut ≤ ke → ke ≤ d2 → ke + w * 3 < USIZE →
        readVals w fb kb ke d0 cut (w * 3) ++ readVals w fb kb ke cut d2 (w * 3) = vs
          ∧ readVals w fb kb ke d0 d2 (w * 3) = vs
          ∧ pbegin 0 = 0
          ∧ pbegin (readVals w fb kb ke d0 cut (w * 3)).length = 0
          ∧ pmissing (readVals w fb kb ke cut d2 (w * 3)).length
              (pbegin (readVals w fb kb ke d0 cut (w * 3)).length) = 0)
    ∧ (∀ (w : Nat) (recs : List (List (List Nat))) (P S fb : List Nat) (kb ke cut d0 d2 : Nat),
        0 < w → (∀ r ∈ recs, ∀ c ∈ r, c.length = w) →
        fb = P ++ (encodeBE recs.flatten ++ S) → kb = P.length →
        ke = kb + w * recs.flatten.length →
        d0 ≤ kb → kb ≤ cut → cut ≤ ke → ke ≤ d2 → ke + w < USIZE →
        ((readVals w fb kb ke d0 cut w
            ++ readMoreVals w fb kb ke cut w
                (missingTrail (recs.map List.length) (readVals w fb kb ke d0 cut w).length))
          ++ (readVals w fb kb ke cut d2 w).drop
              (firstOwned (recs.map List.length) (readVals w fb kb ke d0 cut w).length))
          = recs.flatten
          ∧ readVals w fb kb ke d0 d2 w = recs.flatten) := by
  constructor
  · intro w N vs P S fb kb ke cut d0 d2 hw huni h3N hfb hkb hke hd0 hc1 hc2 hd2 hbig
    obtain ⟨m0, hm0K, hr0, hv0⟩ :=
      readVals_left rfl hw (by omega) huni P S hfb hkb h3N hke hd0 hc1 hc2 hbig
    obtain ⟨m1, hm1K, hr1, hv1⟩ :=
      readVals_right rfl hw (by omega) huni P S hfb hkb h3N hke hc1 hc2 hd2 hbig
    have hm01 : m0 = m1 := by
      have heq : kb + (w * 3) * m0 = kb + (w * 3) * m1 := hr0.symm.trans hr1
      have hwu : 0 < w * 3 := by omega
      exact Nat.eq_of_mul_eq_mul_left hwu (Nat.add_left_cancel heq)
    have h3m : 3 * m0 ≤ vs.length := by
      rw [h3N]
      exact Nat.mul_le_mul_left 3 hm0K
    have hlen0 : (readVals w fb kb ke d0 cut (w * 3)).length = 3 * m0 := by
      rw [hv0, List.length_take]
      exact min_eq_left h3m
    have hlen1 : (readVals w fb kb ke cut d2 (w * 3)).length = vs.length - 3 * m1 := by
      rw [hv1, List.length_drop]
    refine ⟨?_, ?_, ?_, ?_, ?_⟩
    · rw [hv0, hv1, ← hm01]
      exact List.take_append_drop _ _
    · exact readVals_whole rfl hw (by omega) huni P S hfb hkb h3N hke hd0 hd2 hbig
    · rfl
    · rw [hlen0]
      simp only [pbegin]
      omega
    · rw [hlen0, hlen1, h3N, ← hm01]
      simp only [pbegin, pmissing]
      omega
  · intro w recs P S fb kb ke cut d0 d2 hw huni hfb hkb hke hd0 hc1 hc2 hd2 hbig
    have hflatuni : ∀ c ∈ recs.flatten, c.length = w := by
      intro c hc
      obtain ⟨r, hr, hcr⟩ := List.mem_flatten.mp hc
      exact huni r hr c hcr
    have hal : w = w * 1 := by ring
    have hK : recs.flatten.length = 1 * recs.flatten.length := by ring
    obtain ⟨m0, hm0K, hr0, hv0⟩ :=
      readVals_left hal hw one_pos hflatuni P S hfb hkb hK hke hd0 hc1 hc2 hbig
    obtain ⟨m1, hm1K, hr1, hv1⟩ :=
      readVals_right hal hw one_pos hflatuni P S hfb hkb hK hke hc1 hc2 hd2 hbig
    have hm01 : m0 = m1 := by
      have heq : kb + w * m0 = kb + w * m1 := hr0.symm.trans hr1
      exact Nat.eq_of_mul_eq_mul_left hw (Nat.add_left_cancel heq)
    rw [one_mul] at hv0 hv1
    have hlen0 : (readVals w fb kb ke d0 cut w).length = m0 := by
      rw [hv0, List.length_take]
      exact min_eq_left hm0K
    have hsum : (recs.map List.length).sum = recs.flatten.length :=
      (List.length_flatten recs).symm
    have hge : m0 ≤ nextRecordBoundary (recs.map List.length) m0 :=
      nextRecordBoundary_ge (recs.map List.length) m0
    have hle : nextRecordBoundary (recs.map List.length) m0 ≤ recs.flatten.length := by
      rw [← hsum]
      exact nextRecordBoundary_le (recs.map List.length) m0 (by rw [hsum]; exact hm0K)
    have hmore : readMoreVals w fb kb ke cut w (missingTrail (recs.map List.length) m0)
        = (recs.flatten.drop m0).take (nextRecordBoundary (recs.map List.length) m0 - m0) := by
      have ht : missingTrail (recs.map List.length) m0
          = nextRecordBoundary (recs.map List.length) m0 - m0 := rfl
      rw [ht]
      apply readMoreVals_slice hw hflatuni P S hfb hkb
      · rw [Nat.min_eq_right hc2]
        exact hr0
      · omega
    constructor
    · rw [hlen0, hv0, hv1, ← hm01, hmore]
      have hf : firstOwned (recs.map List.length) m0
          = nextRecordBoundary (recs.map List.length) m0 - m0 := rfl
      rw [hf]
      rw [List.drop_drop]
      have hX : m0 + (nextRecordBoundary (recs.map List.length) m0 - m0)
          = nextRecordBoundary (recs.map List.length) m0 := by omega
      rw [← List.take_add, hX]
      exact List.take_append_drop _ _
    · exact readVals_whole hal hw one_pos hflatuni P S hfb hkb hK hke hd0 hd2 hbig

/-- Witness for C2: a three-value points payload split inside its only triple
and a two-record cells payload split inside the first record, both with
one-byte values, reconstruct the full decoded sequence on completion. -/
theorem c2_witness :
    (0 : Nat) < 1
      ∧ (readVals 1 (encodeBE [[10], [11], [12]]) 0 3 0 2 3
            ++ readVals 1 (encodeBE [[10], [11], [12]]) 0 3 2 3 3 = [[10], [11], [12]]
        ∧ readVals 1 (encodeBE [[10], [11], [12]]) 0 3 0 3 3 = [[10], [11], [12]]
        ∧ pbegin 0 = 0
        ∧ pbegin (readVals 1 (encodeBE [[10], [11], [12]]) 0 3 0 2 3).length = 0
        ∧ pmissing (readVals 1 (encodeBE [[10], [11], [12]]) 0 3 2 3 3).length
            (pbegin (readVals 1 (encodeBE [[10], [11], [12]]) 0 3 0 2 3).length) = 0)
      ∧ ((readVals 1 (encodeBE [[2], [7], [8], [1], [5]]) 0 5 0 2 1
            ++ readMoreVals 1 (encodeBE [[2], [7], [8], [1], [5]]) 0 5 2 1
                (missingTrail [3, 2]
                  (readVals 1 (encodeBE [[2], [7], [8], [1], [5]]) 0 5 0 2 1).length))
          ++ (readVals 1 (encodeBE [[2], [7], [8], [1], [5]]) 0 5 2 5 1).drop
              (firstOwned [3, 2]
                (readVals 1 (encodeBE [[2], [7], [8], [1], [5]]) 0 5 0 2 1).length)
          = [[2], [7], [8], [1], [5]]
        ∧ readVals 1 (encodeBE [[2], [7], [8], [1], [5]]) 0 5 0 5 1
            = [[2], [7], [8], [1], [5]]) :=
  ⟨by decide,
    c2_boundary_completion.1 1 1 [[10], [11], [12]] [] [] _ 0 3 2 0 3 (by decide) (by decide)
      (by decide) (by decide) (by decide) (by decide) (by decide) (by decide) (by decide)
      (by decide) (by decide),
    c2_boundary_completion.2 1 [[[2], [7], [8]], [[1], [5]]] [] [] _ 0 5 2 0 5 (by decide)
      (by decide) (by decide) (by decide) (by decide) (by decide) (by decide) (by decide)
      (by decide) (by decide)⟩
